import Mathlib

/-
Verification of the MUD (Muon Data) format library against its
specification.  The development shallowly embeds:

  * the byte-level primitive codec (encode_2 / encode_4 / encode_str,
    little-endian, u16 length-prefixed strings),
  * the section-dispatch engine (Core codec, type registry keyed by
    secID, group decode/encode, the write fix-up passes),
  * the variable-length histogram packer (MUD_pack / MUD_unpack),
  * the friendly getter/setter layer over a handle table, and
  * the helper routines of the extra utilities
    (histlinregr from deglitch.c, matchcmd and trimSpace from
    change_titles.c).

Byte streams are lists of naturals (each element a byte value);
machine integers are naturals reduced mod 2^32 / 2^16 where the code
truncates.  Fallible decoding returns Option.
-/

/-! ### Byte-level primitive codec -/

/-- Emit a 16-bit value, little-endian (two bytes). -/
def encode_2 (v : Nat) : List Nat := [v % 256, v / 256 % 256]

/-- Emit a 32-bit value, little-endian (four bytes). -/
def encode_4 (v : Nat) : List Nat :=
  [v % 256, v / 256 % 256, v / 65536 % 256, v / 16777216 % 256]

/-- Emit a length-prefixed string: u16 byte length, then the bytes,
no trailing NUL on disk. -/
def encode_str (s : List Nat) : List Nat := encode_2 s.length ++ s

/-- Consume a 16-bit little-endian value. -/
def decode_2 : List Nat → Option (Nat × List Nat)
  | b0 :: b1 :: r => some (b0 + 256 * b1, r)
  | _ => none

/-- Consume a 32-bit little-endian value. -/
def decode_4 : List Nat → Option (Nat × List Nat)
  | b0 :: b1 :: b2 :: b3 :: r =>
      some (b0 + 256 * b1 + 65536 * b2 + 16777216 * b3, r)
  | _ => none

/-- Consume exactly `n` raw bytes; fails on a short buffer. -/
def decode_raw (n : Nat) (bytes : List Nat) : Option (List Nat × List Nat) :=
  if bytes.length < n then none else some (bytes.take n, bytes.drop n)

/-- Consume a length-prefixed string; fails when the declared length
exceeds the remaining bytes. -/
def decode_str (bytes : List Nat) : Option (List Nat × List Nat) :=
  match decode_2 bytes with
  | none => none
  | some (n, r) => decode_raw n r

theorem take_append_self (l r : List Nat) : (l ++ r).take l.length = l := by
  induction l with
  | nil => simp
  | cons a t ih => simp [ih]

theorem drop_append_self (l r : List Nat) : (l ++ r).drop l.length = r := by
  induction l with
  | nil => simp
  | cons a t ih => simp [ih]

theorem decode_2_encode_2 (v : Nat) (r : List Nat) (h : v < 65536) :
    decode_2 (encode_2 v ++ r) = some (v, r) := by
  simp only [encode_2, List.cons_append, List.nil_append, decode_2]
  have hv : v % 256 + 256 * (v / 256 % 256) = v := by omega
  rw [hv]

theorem decode_4_encode_4 (v : Nat) (r : List Nat) (h : v < 4294967296) :
    decode_4 (encode_4 v ++ r) = some (v, r) := by
  simp only [encode_4, List.cons_append, List.nil_append, decode_4]
  have hv : v % 256 + 256 * (v / 256 % 256) + 65536 * (v / 65536 % 256) +
      16777216 * (v / 16777216 % 256) = v := by omega
  rw [hv]

theorem decode_raw_exact (b r : List Nat) :
    decode_raw b.length (b ++ r) = some (b, r) := by
  simp [decode_raw, take_append_self, drop_append_self]

theorem decode_str_encode_str (s : List Nat) (r : List Nat)
    (h : s.length < 65536) :
    decode_str (encode_str s ++ r) = some (s, r) := by
  simp only [encode_str, List.append_assoc, decode_str,
    decode_2_encode_2 s.length (s ++ r) h]
  exact decode_raw_exact s r

/-! ### Histogram packing (MUD_pack / unpack direction)

Modelled from the spec: the reference `MUD_pack` body is not in the
source tree (only its prototype and documentation are).  The spec
fixes the byte-oriented scheme: each value is written in the minimum
of {1,2,4} bytes preceded by a width-tag byte
(0x00 = 1 byte, 0x01 = 2 bytes, 0x02 = 4 bytes). -/

/-- Pack one nonnegative 32-bit value: width tag then minimal bytes. -/
def MUD_packOne (v : Nat) : List Nat :=
  if v < 256 then [0, v]
  else if v < 65536 then 1 :: encode_2 v
  else 2 :: encode_4 v

/-- Pack a whole array of 32-bit bin values. -/
def MUD_pack : List Nat → List Nat
  | [] => []
  | v :: vs => MUD_packOne v ++ MUD_pack vs

/-- Unpack a packed byte stream back into 32-bit bin values. -/
def MUD_unpack : List Nat → Option (List Nat)
  | [] => some []
  | 0 :: b0 :: r => (MUD_unpack r).map (fun xs => b0 :: xs)
  | 1 :: b0 :: b1 :: r => (MUD_unpack r).map (fun xs => (b0 + 256 * b1) :: xs)
  | 2 :: b0 :: b1 :: b2 :: b3 :: r =>
      (MUD_unpack r).map
        (fun xs => (b0 + 256 * b1 + 65536 * b2 + 16777216 * b3) :: xs)
  | _ => none

/-- C4: for every array of nonnegative 32-bit integers, unpacking the
variable-length packed stream (width-tag byte then the value in the
minimum of 1, 2 or 4 bytes) returns the array element-for-element. -/
theorem MUD_unpack_MUD_pack (xs : List Nat) (h : ∀ x ∈ xs, x < 4294967296) :
    MUD_unpack (MUD_pack xs) = some xs := by
  induction xs with
  | nil => rfl
  | cons v vs ih =>
    have hv : v < 4294967296 := h v (by simp)
    have ihv := ih (fun x hx => h x (by simp [hx]))
    by_cases h1 : v < 256
    · have : v % 256 = v := Nat.mod_eq_of_lt h1
      simp [MUD_pack, MUD_packOne, h1, MUD_unpack, ihv]
    · by_cases h2 : v < 65536
      · simp only [MUD_pack, MUD_packOne, h1, if_false, h2, if_true,
          encode_2, List.cons_append, List.nil_append, MUD_unpack, ihv]
        simp only [Option.map_some']
        have hv2 : v % 256 + 256 * (v / 256 % 256) = v := by omega
        rw [hv2]
      · simp only [MUD_pack, MUD_packOne, h1, if_false, h2,
          encode_4, List.cons_append, List.nil_append, MUD_unpack, ihv]
        simp only [Option.map_some']
        have hv4 : v % 256 + 256 * (v / 256 % 256) + 65536 * (v / 65536 % 256) +
            16777216 * (v / 16777216 % 256) = v := by omega
        rw [hv4]

/-- C4 witness: the packing round-trip at the spec's pinned example
array [0, 1, 255, 256, 65535, 65536, 0xFFFFFFFF]. -/
theorem MUD_unpack_MUD_pack_witness :
    MUD_unpack (MUD_pack [0, 1, 255, 256, 65535, 65536, 4294967295]) =
      some [0, 1, 255, 256, 65535, 65536, 4294967295] :=
  MUD_unpack_MUD_pack _ (by decide)

/-! ### deglitch.c : histlinregr

The regression accumulators are C doubles; the loop control however
reads and writes only the integer bin arguments, so the state carried
through the loop is abstracted to a type `α` updated pointwise by `u`
(one call per histogram index `j`, exactly as the inner for loop
does).  The while loop of histlinregr is modelled with explicit fuel:
`none` means the loop was still running when the fuel ran out, so a
result of `none` for every fuel value is non-termination. -/

/-- The inner for loop of histlinregr: apply `u` to each index
`j = lo .. hi` in order (empty when hi < lo, as in C). -/
def forRange {α : Type} (u : Int → α → α) (lo hi : Int) (acc : α) : α :=
  (List.range (hi + 1 - lo).toNat).foldl (fun a i => u (lo + i) a) acc

/-- The while loop of histlinregr (deglitch.c lines 321-335):
while b2 > b1, run the for loop over bins b1..b2, then set
b1 := bb1, b2 := bb2 and test again. -/
def histlinregrLoop {α : Type} (u : Int → α → α) :
    Nat → Int → Int → Int → Int → α → Option α
  | 0, _, _, _, _, _ => none
  | fuel + 1, b1, b2, bb1, bb2, acc =>
    if b1 < b2 then
      histlinregrLoop u fuel bb1 bb2 bb1 bb2 (forRange u (b1 - 1) (b2 - 1) acc)
    else some acc

theorem histlinregrLoop_fixed {α : Type} (u : Int → α → α)
    (b1 b2 : Int) (hb : b1 < b2) :
    ∀ (fuel : Nat) (acc : α), histlinregrLoop u fuel b1 b2 b1 b2 acc = none := by
  intro fuel
  induction fuel with
  | zero => intro acc; rfl
  | succ n ih => intro acc; simp only [histlinregrLoop, hb, if_true]; exact ih _

/-- C8: the while loop of histlinregr never exits once a non-empty
second bin subset is selected: with bb1 < bb2 (and an initially
non-empty first range b1 < b2) the loop re-enters forever, because
each iteration resets b1 := bb1, b2 := bb2 without ever clearing bb1
and bb2.  No fuel value suffices, i.e. the function does not return. -/
theorem histlinregrLoop_diverges {α : Type} (u : Int → α → α)
    (b1 b2 bb1 bb2 : Int) (h1 : b1 < b2) (h2 : bb1 < bb2) :
    ∀ (fuel : Nat) (acc : α),
      histlinregrLoop u fuel b1 b2 bb1 bb2 acc = none := by
  intro fuel acc
  cases fuel with
  | zero => rfl
  | succ n =>
    simp only [histlinregrLoop, h1, if_true]
    exact histlinregrLoop_fixed u bb1 bb2 h2 n _

/-- C8 witness: the concrete two-sided deglitch call shape
(b1,b2,bb1,bb2) = (1,3,5,7) never returns, for any fuel. -/
theorem histlinregrLoop_diverges_witness :
    histlinregrLoop (fun (_ : Int) (a : Unit) => a) 1000 1 3 5 7 () = none :=
  histlinregrLoop_diverges _ 1 3 5 7 (by decide) (by decide) 1000 ()

/-! ### change_titles.c : matchcmd -/

/-- C tolower in the C locale: fold A-Z (65-90) onto a-z. -/
def tolowerC (c : Nat) : Nat := if 65 ≤ c ∧ c ≤ 90 then c + 32 else c

/-- The comparison loop of matchcmd: case-insensitive equality of two
equal-length character lists. -/
def eqIgnoreCase : List Nat → List Nat → Bool
  | [], [] => true
  | c :: cs, p :: ps => tolowerC c == tolowerC p && eqIgnoreCase cs ps
  | _, _ => false

/-- matchcmd (change_titles.c lines 679-698): match command against
prototype; the command may be abbreviated to the lesser of `len` and
the prototype length, and comparison is case-insensitive over the
first min(len(command), len(prototype)) characters. -/
def matchcmd (command prototype : List Nat) (len : Int) : Nat :=
  let lp := prototype.length
  let lc := command.length
  if (lc : Int) < (lp : Int) ∧ (lc : Int) < len then 0
  else
    let lm := min lp lc
    if eqIgnoreCase (command.take lm) (prototype.take lm) then 1 else 0

theorem getD_take_lt (l : List Nat) :
    ∀ (m i : Nat), i < m → (l.take m).getD i 0 = l.getD i 0 := by
  induction l with
  | nil => intro m i _; simp
  | cons a t ih =>
    intro m i him
    cases m with
    | zero => omega
    | succ m' =>
      cases i with
      | zero => simp
      | succ i' => simpa using ih m' i' (by omega)

theorem eqIgnoreCase_iff : ∀ (as bs : List Nat), as.length = bs.length →
    (eqIgnoreCase as bs = true ↔
      ∀ i < as.length, tolowerC (as.getD i 0) = tolowerC (bs.getD i 0)) := by
  intro as
  induction as with
  | nil =>
    intro bs hl
    cases bs with
    | nil => simp [eqIgnoreCase]
    | cons b t => simp at hl
  | cons a t ih =>
    intro bs hl
    cases bs with
    | nil => simp at hl
    | cons b bt =>
      simp only [eqIgnoreCase, Bool.and_eq_true, beq_iff_eq]
      rw [ih bt (by simpa using hl)]
      constructor
      · rintro ⟨h0, hrest⟩ i hi
        cases i with
        | zero => simpa using h0
        | succ i' => simpa using hrest i' (by simpa using hi)
      · intro hall
        refine ⟨by simpa using hall 0 (by simp), ?_⟩
        intro i hi
        simpa using hall (i + 1) (by simpa using hi)

/-- C9: matchcmd returns 1 exactly when the command length is at least
min(len, len(prototype)) and command and prototype agree
case-insensitively on their first min(len(command), len(prototype))
characters; consequently any command having the prototype as a
case-insensitive prefix matches, whatever follows it. -/
theorem matchcmd_spec (c p : List Nat) (len : Int) :
    (matchcmd c p len = 1 ↔
      (min len (p.length : Int) ≤ (c.length : Int) ∧
        ∀ i < min c.length p.length,
          tolowerC (c.getD i 0) = tolowerC (p.getD i 0))) ∧
    ((p.length ≤ c.length ∧
        ∀ i < p.length, tolowerC (c.getD i 0) = tolowerC (p.getD i 0)) →
      matchcmd c p len = 1) := by
  have hlen : (c.take (min p.length c.length)).length =
      (p.take (min p.length c.length)).length := by
    simp [List.length_take]
  have hiff := eqIgnoreCase_iff _ _ hlen
  have htnewlen : (c.take (min p.length c.length)).length =
      min c.length p.length := by
    simp [List.length_take]; omega
  have hmain : matchcmd c p len = 1 ↔
      (min len (p.length : Int) ≤ (c.length : Int) ∧
        ∀ i < min c.length p.length,
          tolowerC (c.getD i 0) = tolowerC (p.getD i 0)) := by
    unfold matchcmd
    by_cases hcond : (c.length : Int) < (p.length : Int) ∧ (c.length : Int) < len
    · obtain ⟨h1, h2⟩ := hcond
      simp only [h1, h2, and_self, if_true]
      constructor
      · intro h; exact absurd h (by omega)
      · rintro ⟨hmin, _⟩
        exfalso
        have : min len (p.length : Int) ≤ (c.length : Int) := hmin
        omega
    · simp only [hcond, if_false]
      have hminle : min len (p.length : Int) ≤ (c.length : Int) := by
        rcases not_and_or.mp hcond with h | h <;> omega
      by_cases heq : eqIgnoreCase (c.take (min p.length c.length))
          (p.take (min p.length c.length)) = true
      · simp only [heq, if_true]
        constructor
        · intro _
          refine ⟨hminle, ?_⟩
          intro i hi
          have hi' : i < min p.length c.length := by omega
          have := (hiff.mp heq) i (by rw [htnewlen]; omega)
          rwa [getD_take_lt c _ i hi', getD_take_lt p _ i hi'] at this
        · intro _; trivial
      · simp only [heq, if_false]
        constructor
        · intro h; exact absurd h (by decide)
        · rintro ⟨_, hall⟩
          exfalso
          apply heq
          apply hiff.mpr
          intro i hi
          have hi' : i < min p.length c.length := by
            rw [htnewlen] at hi; omega
          rw [getD_take_lt c _ i hi', getD_take_lt p _ i hi']
          exact hall i (by omega)
  refine ⟨hmain, ?_⟩
  rintro ⟨hle, hall⟩
  apply hmain.mpr
  constructor
  · omega
  · intro i hi
    exact hall i (by omega)

/-! ### change_titles.c : trimSpace -/

/-- The first two loops of trimSpace: skip leading ' ' characters,
then shift the remaining characters to the front of the buffer.  The
observable buffer content (up to the written NUL) is the suffix
starting at the first non-space character. -/
def dropLeadingSpaces : List Nat → List Nat
  | [] => []
  | c :: cs => if c = 32 then dropLeadingSpaces cs else c :: cs

/-- The third loop of trimSpace: starting from length `k`, back up
over trailing ' ' characters (writing NULs), returning the final
length. -/
def trimTrailingLen (s : List Nat) : Nat → Nat
  | 0 => 0
  | k + 1 => if s.getD k 0 = 32 then trimTrailingLen s k else k + 1

/-- trimSpace (change_titles.c lines 653-670): erase leading and
trailing spaces in place; the result is the rewritten string together
with the returned length. -/
def trimSpace (s : List Nat) : List Nat × Nat :=
  let t := dropLeadingSpaces s
  let k := trimTrailingLen t t.length
  (t.take k, k)

/-- trimSpaceSpec states the claim's wording independently of the
code: delete all leading and all trailing space characters (0x20
only), preserving the interior. -/
def trimSpaceSpec (s : List Nat) : List Nat :=
  ((s.dropWhile (· == 32)).reverse.dropWhile (· == 32)).reverse

theorem dropLeadingSpaces_eq_dropWhile (s : List Nat) :
    dropLeadingSpaces s = s.dropWhile (· == 32) := by
  induction s with
  | nil => rfl
  | cons a t ih =>
    by_cases h : a = 32 <;> simp [dropLeadingSpaces, List.dropWhile_cons, h, ih]

theorem getD_append_left (l r : List Nat) :
    ∀ i, i < l.length → (l ++ r).getD i 0 = l.getD i 0 := by
  induction l with
  | nil => intro i hi; simp at hi
  | cons a t ih =>
    intro i hi
    cases i with
    | zero => simp
    | succ i' => simpa using ih i' (by simpa using hi)

theorem getD_append_len (l : List Nat) (a : Nat) :
    (l ++ [a]).getD l.length 0 = a := by
  induction l with
  | nil => rfl
  | cons b t ih => simpa using ih

theorem trimTrailingLen_append (l : List Nat) (a : Nat) :
    ∀ k, k ≤ l.length → trimTrailingLen (l ++ [a]) k = trimTrailingLen l k := by
  intro k
  induction k with
  | zero => intro _; rfl
  | succ k' ih =>
    intro hk
    simp only [trimTrailingLen, getD_append_left l [a] k' (by omega),
      ih (by omega)]

theorem trimTrailingLen_le (s : List Nat) : ∀ k, trimTrailingLen s k ≤ k := by
  intro k
  induction k with
  | zero => simp [trimTrailingLen]
  | succ k' ih =>
    simp only [trimTrailingLen]
    by_cases h : s.getD k' 0 = 32
    · rw [if_pos h]; omega
    · rw [if_neg h]

theorem trimTrailing_char (t : List Nat) :
    t.take (trimTrailingLen t t.length) =
        (t.reverse.dropWhile (· == 32)).reverse ∧
      trimTrailingLen t t.length =
        ((t.reverse.dropWhile (· == 32)).reverse).length := by
  induction t using List.reverseRecOn with
  | nil => simp [trimTrailingLen]
  | append_singleton l a ih =>
    have hlen : (l ++ [a]).length = l.length + 1 := by simp
    by_cases ha : a = 32
    · subst ha
      have h1 : trimTrailingLen (l ++ [32]) (l ++ [32]).length =
          trimTrailingLen l l.length := by
        rw [hlen]
        simp only [trimTrailingLen, getD_append_len, if_true]
        exact trimTrailingLen_append l 32 l.length (le_refl _)
      have h2 : (l ++ [32]).reverse.dropWhile (· == 32) =
          l.reverse.dropWhile (· == 32) := by
        simp [List.dropWhile_cons]
      rw [h1, h2]
      refine ⟨?_, ih.2⟩
      rw [List.take_append_of_le_length
        (le_trans (trimTrailingLen_le l l.length) (le_refl _))]
      exact ih.1
    · have h1 : trimTrailingLen (l ++ [a]) (l ++ [a]).length =
          (l ++ [a]).length := by
        rw [hlen]
        simp only [trimTrailingLen, getD_append_len, ha, if_false]
      have h2 : (l ++ [a]).reverse.dropWhile (· == 32) = a :: l.reverse := by
        simp [List.dropWhile_cons, ha]
      rw [h1, h2]
      constructor
      · simp
      · simp [hlen]

theorem dropWhile_head_false (p : Nat → Bool) :
    ∀ (l : List Nat) (a : Nat) (tl : List Nat),
      l.dropWhile p = a :: tl → p a = false := by
  intro l
  induction l with
  | nil => intro a tl h; simp at h
  | cons b t ih =>
    intro a tl h
    rw [List.dropWhile_cons] at h
    by_cases hb : p b = true
    · exact ih a tl (by rwa [if_pos hb] at h)
    · rw [if_neg hb] at h
      cases h
      simpa using hb

theorem dropWhile_idem (p : Nat → Bool) (l : List Nat) :
    (l.dropWhile p).dropWhile p = l.dropWhile p := by
  induction l with
  | nil => rfl
  | cons a t ih =>
    rw [List.dropWhile_cons]
    by_cases h : p a = true
    · rw [if_pos h]; exact ih
    · rw [if_neg h, List.dropWhile_cons, if_neg h]

/-- C10: trimSpace rewrites the string to the substring obtained by
deleting all leading and all trailing spaces (0x20 only), keeping the
interior intact; it returns the resulting length, and applying it a
second time changes nothing. -/
theorem trimSpace_spec (s : List Nat) :
    (trimSpace s).1 = trimSpaceSpec s ∧
      (trimSpace s).2 = (trimSpaceSpec s).length ∧
      trimSpace ((trimSpace s).1) = trimSpace s := by
  have hchar := trimTrailing_char (dropLeadingSpaces s)
  have h1 : (trimSpace s).1 = trimSpaceSpec s := by
    show (dropLeadingSpaces s).take
        (trimTrailingLen (dropLeadingSpaces s) (dropLeadingSpaces s).length) =
      trimSpaceSpec s
    rw [hchar.1, dropLeadingSpaces_eq_dropWhile, trimSpaceSpec]
  have h2 : (trimSpace s).2 = (trimSpaceSpec s).length := by
    show trimTrailingLen (dropLeadingSpaces s) (dropLeadingSpaces s).length =
      (trimSpaceSpec s).length
    rw [hchar.2, dropLeadingSpaces_eq_dropWhile, trimSpaceSpec]
  refine ⟨h1, h2, ?_⟩
  set res := (trimSpace s).1 with hres
  have hnolead : dropLeadingSpaces res = res := by
    rw [dropLeadingSpaces_eq_dropWhile]
    rcases hr : res with _ | ⟨a, tl⟩
    · rfl
    · have hdls : dropLeadingSpaces s = s.dropWhile (· == 32) :=
        dropLeadingSpaces_eq_dropWhile s
      have : res = (dropLeadingSpaces s).take
          (trimTrailingLen (dropLeadingSpaces s) (dropLeadingSpaces s).length) := rfl
      rw [hr] at this
      rcases hd : dropLeadingSpaces s with _ | ⟨b, bt⟩
      · rw [hd] at this; simp at this
      · have hb : (b == 32) = false := by
          apply dropWhile_head_false (· == 32) s
          rw [← hdls]; exact hd
        rw [hd] at this
        have hab : a = b := by
          rcases hk : trimTrailingLen (b :: bt) (b :: bt).length with _ | k'
          · rw [hk] at this; simp at this
          · rw [hk] at this; simp at this; exact this.1
        rw [List.dropWhile_cons, hab, hb]
        simp
    -- end hnolead
  have hnotrail : (res.reverse.dropWhile (· == 32)) = res.reverse := by
    have : res.reverse = (s.dropWhile (· == 32)).reverse.dropWhile (· == 32) := by
      rw [h1, trimSpaceSpec, List.reverse_reverse]
    rw [this]
    exact dropWhile_idem _ _
  have hchar2 := trimTrailing_char res
  have hlen2 : trimTrailingLen res res.length = res.length := by
    rw [hchar2.2, hnotrail, List.reverse_reverse]
  show trimSpace res = trimSpace s
  have : trimSpace res = (res.take (trimTrailingLen res res.length),
      trimTrailingLen res res.length) := by
    show ((dropLeadingSpaces res).take
        (trimTrailingLen (dropLeadingSpaces res) (dropLeadingSpaces res).length),
      trimTrailingLen (dropLeadingSpaces res) (dropLeadingSpaces res).length) = _
    rw [hnolead]
  rw [this, hlen2, List.take_length]
  have hsnd : (trimSpace s).2 = res.length := by
    rw [h2, ← h1]
  rw [hres, ← hsnd]

/-! ### The section-dispatch engine

Modelled from the spec: the engine sources (mud.c, mud_new.c,
mud_all.c, mud_friendly.c, ...) are not in the tree; only the readme
(with the full MUD_SEC_CMT_proc), the programmer's guide and callers
are.  Per the spec, a Section Core occupies a fixed 24 bytes on the
wire (six 32-bit slots), of which only nextOffset, size, secID and
instanceID carry meaning; the remaining two slots (in-memory sizeof
and dispatch pointer) are unused on disk and written as zero here.
Each registered non-group type's payload is a flat list of typed
fields following the declared shape of §6; unregistered secIDs decode
to a verbatim byte blob of `size` bytes. -/

structure MCore where
  nextOffset : Nat
  size : Nat
  secID : Nat
  instanceID : Nat
deriving DecidableEq

/-- A decoded payload field: a 32-bit integer (times included), a
length-prefixed string, or raw bytes (f64 images and histogram or
independent-variable data arrays). -/
inductive FieldVal where
  | u32v (v : Nat)
  | strv (s : List Nat)
  | rawv (b : List Nat)
deriving DecidableEq

/-- The in-memory tree of Sections: a registered non-group Section
with its decoded fields, an unregistered Section kept as an opaque
blob, or a Group owning an ordered member list. -/
inductive MSection where
  | leaf (core : MCore) (fields : List FieldVal)
  | blob (core : MCore) (bytes : List Nat)
  | group (core : MCore) (members : List MSection)

def MSection.core : MSection → MCore
  | .leaf c _ => c
  | .blob c _ => c
  | .group c _ => c

/-- Read the i-th previously decoded field as a u32 (0 otherwise);
used by shapes whose later fields' byte counts depend on earlier
header fields (nBytes, elemSize*numData, hasTime). -/
def u32At (fs : List FieldVal) (i : Nat) : Nat :=
  match fs.getD i (FieldVal.u32v 0) with
  | .u32v v => v
  | _ => 0

/-- One field of a registered type's declared shape. -/
inductive FieldKind where
  | ku32
  | kstr
  | kf64
  | kraw (len : List FieldVal → Nat)

/-
Section IDs.  Modelled from the spec: the concrete 32-bit codes are
not given in the spec or the in-tree sources, so distinct placeholder
values stand for them; nothing below depends on the specific values,
only on their distinctness and registry classification.
-/

def MUD_SEC_GRP_ID : Nat := 100
def MUD_FMT_GEN_ID : Nat := 101
def MUD_FMT_TRI_TD_ID : Nat := 102
def MUD_FMT_TRI_TI_ID : Nat := 103
def MUD_GRP_GEN_ID : Nat := 110
def MUD_GRP_TRI_TD_HIST_ID : Nat := 111
def MUD_GRP_TRI_TI_HIST_ID : Nat := 112
def MUD_GRP_TRI_TD_SCALER_ID : Nat := 113
def MUD_GRP_GEN_IND_VAR_ID : Nat := 114
def MUD_GRP_GEN_IND_VAR_ARR_ID : Nat := 115
def MUD_GRP_CMT_ID : Nat := 116
def MUD_SEC_GEN_RUN_DESC_ID : Nat := 120
def MUD_SEC_TRI_TI_RUN_DESC_ID : Nat := 121
def MUD_SEC_GEN_HIST_HDR_ID : Nat := 122
def MUD_SEC_TRI_TD_HIST_ID : Nat := 123
def MUD_SEC_TRI_TI_HIST_ID : Nat := 124
def MUD_SEC_GEN_SCALER_ID : Nat := 125
def MUD_SEC_TRI_TD_SCALER_ID : Nat := 126
def MUD_SEC_GEN_IND_VAR_ID : Nat := 127
def MUD_SEC_GEN_IND_VAR_ARR_ID : Nat := 128
def MUD_SEC_CMT_ID : Nat := 129

/-- Group secIDs (including the file-format IDs: the outer group of a
file is itself dispatched as a group). -/
def isGroupID (id : Nat) : Bool :=
  id == MUD_SEC_GRP_ID || id == MUD_FMT_GEN_ID || id == MUD_FMT_TRI_TD_ID ||
  id == MUD_FMT_TRI_TI_ID || id == MUD_GRP_GEN_ID ||
  id == MUD_GRP_TRI_TD_HIST_ID || id == MUD_GRP_TRI_TI_HIST_ID ||
  id == MUD_GRP_TRI_TD_SCALER_ID || id == MUD_GRP_GEN_IND_VAR_ID ||
  id == MUD_GRP_GEN_IND_VAR_ARR_ID || id == MUD_GRP_CMT_ID

/-- File-format secIDs accepted for the outer record. -/
def isFormatID (id : Nat) : Bool :=
  id == MUD_FMT_GEN_ID || id == MUD_FMT_TRI_TD_ID || id == MUD_FMT_TRI_TI_ID

/-- GEN_RUN_DESC: five u32 header words then twelve strings. -/
def genRunDescShape : List FieldKind :=
  List.replicate 5 .ku32 ++ List.replicate 12 .kstr

/-- TRI_TI_RUN_DESC: like GEN_RUN_DESC with temperature/field
replaced by subtitle and three comment strings. -/
def triTiRunDescShape : List FieldKind :=
  List.replicate 5 .ku32 ++ List.replicate 14 .kstr

/-- Histogram header/data: twelve u32 words, the title, then nBytes
(field 1) raw bytes of histogram data. -/
def histShape : List FieldKind :=
  List.replicate 12 .ku32 ++ [.kstr, .kraw (fun fs => u32At fs 1)]

/-- Scaler: two counts and a label. -/
def scalerShape : List FieldKind := [.ku32, .ku32, .kstr]

/-- Independent variable: five f64 statistics and three strings. -/
def indVarShape : List FieldKind :=
  List.replicate 5 .kf64 ++ List.replicate 3 .kstr

/-- Independent-variable array: the indVar fields, then numData,
elemSize, dataType, hasTime, elemSize*numData data bytes and, when
hasTime is nonzero, 4*numData time bytes. -/
def indVarArrShape : List FieldKind :=
  indVarShape ++ [.ku32, .ku32, .ku32, .ku32,
    .kraw (fun fs => u32At fs 9 * u32At fs 8),
    .kraw (fun fs => if u32At fs 11 = 0 then 0 else 4 * u32At fs 8)]

/-- Comment: id, prevReplyID, nextReplyID, time, author, title,
comment (cf. MUD_SEC_CMT_proc in the readme). -/
def cmtShape : List FieldKind :=
  [.ku32, .ku32, .ku32, .ku32, .kstr, .kstr, .kstr]

/-- The type registry: secID to declared payload shape for the
registered non-group types; none for unknown secIDs. -/
def registryShape (id : Nat) : Option (List FieldKind) :=
  if id = MUD_SEC_GEN_RUN_DESC_ID then some genRunDescShape
  else if id = MUD_SEC_TRI_TI_RUN_DESC_ID then some triTiRunDescShape
  else if id = MUD_SEC_GEN_HIST_HDR_ID ∨ id = MUD_SEC_TRI_TD_HIST_ID ∨
      id = MUD_SEC_TRI_TI_HIST_ID then some histShape
  else if id = MUD_SEC_GEN_SCALER_ID ∨ id = MUD_SEC_TRI_TD_SCALER_ID then
    some scalerShape
  else if id = MUD_SEC_GEN_IND_VAR_ID then some indVarShape
  else if id = MUD_SEC_GEN_IND_VAR_ARR_ID then some indVarArrShape
  else if id = MUD_SEC_CMT_ID then some cmtShape
  else none

/-! #### Encoding (the MUD_ENCODE / MUD_GET_SIZE operations) -/

/-- Payload bytes of one field. -/
def emitField : FieldVal → List Nat
  | .u32v v => encode_4 v
  | .strv s => encode_str s
  | .rawv b => b

def emitFields (fs : List FieldVal) : List Nat := (fs.map emitField).flatten

/-- Byte count of one field as the size ops measure it. -/
def fieldSize : FieldVal → Nat
  | .u32v _ => 4
  | .strv s => 2 + s.length
  | .rawv b => b.length

def fieldsSize (fs : List FieldVal) : Nat := (fs.map fieldSize).sum

/- The size op (MUD_GET_SIZE): payload byte count if encoded now.  A
group counts 4 bytes of numMembers plus 24-byte core and payload of
each member. -/
mutual
def sizeOfSec : MSection → Nat
  | .leaf _ fs => fieldsSize fs
  | .blob _ b => b.length
  | .group _ ms => 4 + sizeOfMembers ms

def sizeOfMembers : List MSection → Nat
  | [] => 0
  | s :: ss => 24 + sizeOfSec s + sizeOfMembers ss
end

/-- Serialize a Core: the four meaningful u32 slots then the two
slots that are unused on disk, written as zero. -/
def emitCore (c : MCore) : List Nat :=
  encode_4 c.nextOffset ++ encode_4 c.size ++ encode_4 c.secID ++
    encode_4 c.instanceID ++ encode_4 0 ++ encode_4 0

/-- Deserialize a Core: read the six slots, keep the four meaningful
ones. -/
def decodeCore (bytes : List Nat) : Option (MCore × List Nat) := do
  let (off, r1) ← decode_4 bytes
  let (sz, r2) ← decode_4 r1
  let (sid, r3) ← decode_4 r2
  let (iid, r4) ← decode_4 r3
  let (_, r5) ← decode_4 r4
  let (_, r6) ← decode_4 r5
  some (⟨off, sz, sid, iid⟩, r6)

/- The emit pass: write each Section's stored Core then its payload;
a group payload is numMembers then its members. -/
mutual
def emitPayload : MSection → List Nat
  | .leaf _ fs => emitFields fs
  | .blob _ b => b
  | .group _ ms => encode_4 ms.length ++ emitMembers ms

def emitMembers : List MSection → List Nat
  | [] => []
  | s :: ss => emitCore s.core ++ emitPayload s ++ emitMembers ss
end

/-- The fix-up of one Core in the write passes: store the size op's
value and point nextOffset at the next sibling (24-byte core plus
payload), or 0 for the last member in its scope. -/
def fixCore (c : MCore) (sz : Nat) (lastFlag : Bool) : MCore :=
  { c with size := sz, nextOffset := if lastFlag then 0 else 24 + sz }

/- The size and offset passes of writeFile: recompute every size via
the size op and every nextOffset from it. -/
mutual
def fixupSec : Bool → MSection → MSection
  | lastFlag, .leaf c fs => .leaf (fixCore c (fieldsSize fs) lastFlag) fs
  | lastFlag, .blob c b => .blob (fixCore c b.length lastFlag) b
  | lastFlag, .group c ms =>
      .group (fixCore c (4 + sizeOfMembers ms) lastFlag) (fixupMembers ms)

def fixupMembers : List MSection → List MSection
  | [] => []
  | [s] => [fixupSec true s]
  | s :: s2 :: ss => fixupSec false s :: fixupMembers (s2 :: ss)
end

/-- The outer record is last in its (whole-file) scope. -/
def fixupRoot (s : MSection) : MSection := fixupSec true s

/-- writeFile: size pass, offset pass, then emit the outer Core and
payload. -/
def writeFile (s : MSection) : List Nat :=
  emitCore (fixupRoot s).core ++ emitPayload (fixupRoot s)

/-! #### Decoding (the MUD_DECODE operations and the read driver) -/

/-- Decode the fields of a declared shape in order, accumulating the
fields already read (length-dependent raw fields consult them). -/
def decodeFieldsA :
    List FieldKind → List FieldVal → List Nat → Option (List FieldVal × List Nat)
  | [], acc, bytes => some (acc, bytes)
  | .ku32 :: ks, acc, bytes => do
      let (v, r) ← decode_4 bytes
      decodeFieldsA ks (acc ++ [.u32v v]) r
  | .kstr :: ks, acc, bytes => do
      let (s, r) ← decode_str bytes
      decodeFieldsA ks (acc ++ [.strv s]) r
  | .kf64 :: ks, acc, bytes => do
      let (b, r) ← decode_raw 8 bytes
      decodeFieldsA ks (acc ++ [.rawv b]) r
  | .kraw f :: ks, acc, bytes => do
      let (b, r) ← decode_raw (f acc) bytes
      decodeFieldsA ks (acc ++ [.rawv b]) r

/- Decode one member Section: read its Core, reject a nextOffset or
size that would overrun the enclosing payload, then dispatch on secID
(group / registered shape / opaque blob of `size` bytes).  The fuel
argument only bounds recursion depth; `none` on fuel 0. -/
mutual
def decodeMemberF : Nat → List Nat → Option (MSection × List Nat)
  | 0, _ => none
  | fuel + 1, bytes =>
    match decodeCore bytes with
    | none => none
    | some (c, r) =>
      if 24 + r.length < c.nextOffset then none
      else if r.length < c.size then none
      else if isGroupID c.secID then
        match decode_4 r with
        | none => none
        | some (n, r2) =>
          match decodeMembersF fuel n r2 with
          | none => none
          | some (ms, r3) => some (.group c ms, r3)
      else
        match registryShape c.secID with
        | some shape =>
          match decodeFieldsA shape [] r with
          | none => none
          | some (fs, r2) => some (.leaf c fs, r2)
        | none => some (.blob c (r.take c.size), r.drop c.size)

def decodeMembersF : Nat → Nat → List Nat → Option (List MSection × List Nat)
  | 0, _, _ => none
  | _ + 1, 0, bytes => some ([], bytes)
  | fuel + 1, n + 1, bytes =>
    match decodeMemberF fuel bytes with
    | none => none
    | some (s, r) =>
      match decodeMembersF fuel n r with
      | none => none
      | some (ms, r2) => some (s :: ms, r2)
end

/-- readFile: read the outer Core, require a known file-format secID,
slurp the declared payload and decode it as a group. -/
def decodeFile (bytes : List Nat) : Option MSection :=
  match decodeCore bytes with
  | none => none
  | some (c, r) =>
    if isFormatID c.secID = false then none
    else if r.length < c.size then none
    else
      let p := r.take c.size
      match decode_4 p with
      | none => none
      | some (n, p2) =>
        match decodeMembersF (p.length + 1) n p2 with
        | none => none
        | some (ms, _) => some (.group c ms)

/-! #### Well-formedness -/

/-- All four meaningful Core slots fit in a u32. -/
def coreBounded (c : MCore) : Bool :=
  decide (c.nextOffset < 4294967296) && decide (c.size < 4294967296) &&
    decide (c.secID < 4294967296) && decide (c.instanceID < 4294967296)

/-- A canonical Core: stored size equals the size op's value, all
slots in range. -/
def wfCore (c : MCore) (sz : Nat) : Bool := (c.size == sz) && coreBounded c

/-- Fields match the declared shape: right constructors, u32 values
in range, string lengths in u16 range, raw lengths as the shape
demands. -/
def fieldsOKb : List FieldKind → List FieldVal → List FieldVal → Bool
  | [], _, [] => true
  | .ku32 :: ks, acc, .u32v v :: vs =>
      decide (v < 4294967296) && fieldsOKb ks (acc ++ [.u32v v]) vs
  | .kstr :: ks, acc, .strv s :: vs =>
      decide (s.length < 65536) && fieldsOKb ks (acc ++ [.strv s]) vs
  | .kf64 :: ks, acc, .rawv b :: vs =>
      (b.length == 8) && fieldsOKb ks (acc ++ [.rawv b]) vs
  | .kraw f :: ks, acc, .rawv b :: vs =>
      (b.length == f acc) && fieldsOKb ks (acc ++ [.rawv b]) vs
  | _, _, _ => false

/- A well-formed tree: canonical Cores (sizes from the size op,
nextOffset 24+size for non-last members and 0 for last), payloads
matching the registered shapes, blobs exactly at unregistered secIDs,
and all counts in u32 range. -/
mutual
def wfSec : MSection → Bool
  | .leaf c fs =>
      wfCore c (fieldsSize fs) && !(isGroupID c.secID) &&
        (match registryShape c.secID with
         | some shape => fieldsOKb shape [] fs
         | none => false)
  | .blob c b =>
      wfCore c b.length && !(isGroupID c.secID) && (registryShape c.secID).isNone
  | .group c ms =>
      wfCore c (4 + sizeOfMembers ms) && isGroupID c.secID &&
        decide (ms.length < 4294967296) && wfMembers ms

def wfMembers : List MSection → Bool
  | [] => true
  | [s] => wfSec s && (s.core.nextOffset == 0)
  | s :: s2 :: ss =>
      wfSec s && (s.core.nextOffset == 24 + s.core.size) && wfMembers (s2 :: ss)
end

/-- A well-formed file tree: a group with a file-format secID, last
in the whole-file scope. -/
def wfRoot : MSection → Bool
  | .group c ms => wfSec (.group c ms) && (c.nextOffset == 0) && isFormatID c.secID
  | _ => false

/-! #### Size and emission lemmas -/

theorem emitCore_length (c : MCore) : (emitCore c).length = 24 := rfl

theorem emitField_length (f : FieldVal) : (emitField f).length = fieldSize f := by
  cases f <;> simp [emitField, fieldSize, encode_str, encode_2, encode_4] <;> omega

theorem emitFields_length (fs : List FieldVal) :
    (emitFields fs).length = fieldsSize fs := by
  induction fs with
  | nil => rfl
  | cons f ft ih =>
    simp only [emitFields, fieldsSize, List.map_cons, List.flatten_cons,
      List.length_append, List.sum_cons, emitField_length]
    simp only [emitFields, fieldsSize] at ih
    omega

theorem emitMembers_size (l : List MSection) :
    (emitMembers l).length = sizeOfMembers l := by
  refine emitMembers.induct (fun s => (emitPayload s).length = sizeOfSec s)
    (fun l => (emitMembers l).length = sizeOfMembers l) ?_ ?_ ?_ ?_ ?_ l
  · intro c fs
    simp [emitPayload, sizeOfSec, emitFields_length]
  · intro c b
    rfl
  · intro c ms ih
    simp [emitPayload, sizeOfSec, encode_4, ih]
    omega
  · rfl
  · intro s ss ih1 ih2
    simp [emitMembers, sizeOfMembers, emitCore_length, ih1, ih2]
    omega

theorem emitPayload_size (s : MSection) :
    (emitPayload s).length = sizeOfSec s := by
  cases s with
  | leaf c fs => simp [emitPayload, sizeOfSec, emitFields_length]
  | blob c b => rfl
  | group c ms =>
    simp [emitPayload, sizeOfSec, emitMembers_size, encode_4]
    omega

/-! #### Core and field round-trips -/

theorem decodeCore_emitCore (c : MCore) (rest : List Nat)
    (hb : coreBounded c = true) :
    decodeCore (emitCore c ++ rest) = some (c, rest) := by
  simp only [coreBounded, Bool.and_eq_true, decide_eq_true_eq] at hb
  obtain ⟨⟨⟨h1, h2⟩, h3⟩, h4⟩ := hb
  simp only [emitCore, List.append_assoc]
  simp [decodeCore, decode_4_encode_4 _ _ h1, decode_4_encode_4 _ _ h2,
    decode_4_encode_4 _ _ h3, decode_4_encode_4 _ _ h4,
    decode_4_encode_4 0 _ (by omega)]

theorem fieldsOKb_nil_cons (acc : List FieldVal) (v : FieldVal)
    (vt : List FieldVal) : fieldsOKb [] acc (v :: vt) = false := rfl

theorem decodeFieldsA_emit :
    ∀ (ks : List FieldKind) (acc vs : List FieldVal) (rest : List Nat),
      fieldsOKb ks acc vs = true →
      decodeFieldsA ks acc (emitFields vs ++ rest) = some (acc ++ vs, rest) := by
  intro ks
  induction ks with
  | nil =>
    intro acc vs rest h
    cases vs with
    | nil => simp [decodeFieldsA, emitFields]
    | cons v vt => rw [fieldsOKb_nil_cons] at h; exact absurd h (by decide)
  | cons k kt ih =>
    intro acc vs rest h
    cases k with
    | ku32 =>
      cases vs with
      | nil => exact absurd h (by rw [show fieldsOKb (.ku32 :: kt) acc [] = false from rfl]; decide)
      | cons v vt =>
        cases v with
        | u32v w =>
          simp only [fieldsOKb, Bool.and_eq_true, decide_eq_true_eq] at h
          have hrec := ih (acc ++ [.u32v w]) vt rest h.2
          simp only [emitFields] at hrec
          simp [emitFields, emitField, decodeFieldsA, List.append_assoc,
            decode_4_encode_4 w _ h.1, hrec]
        | strv s =>
          exact absurd h (by rw [show fieldsOKb (.ku32 :: kt) acc (.strv s :: vt) = false from rfl]; decide)
        | rawv b =>
          exact absurd h (by rw [show fieldsOKb (.ku32 :: kt) acc (.rawv b :: vt) = false from rfl]; decide)
    | kstr =>
      cases vs with
      | nil => exact absurd h (by rw [show fieldsOKb (.kstr :: kt) acc [] = false from rfl]; decide)
      | cons v vt =>
        cases v with
        | strv s =>
          simp only [fieldsOKb, Bool.and_eq_true, decide_eq_true_eq] at h
          have hrec := ih (acc ++ [.strv s]) vt rest h.2
          simp only [emitFields] at hrec
          simp [emitFields, emitField, decodeFieldsA, List.append_assoc,
            decode_str_encode_str s _ h.1, hrec]
        | u32v w =>
          exact absurd h (by rw [show fieldsOKb (.kstr :: kt) acc (.u32v w :: vt) = false from rfl]; decide)
        | rawv b =>
          exact absurd h (by rw [show fieldsOKb (.kstr :: kt) acc (.rawv b :: vt) = false from rfl]; decide)
    | kf64 =>
      cases vs with
      | nil => exact absurd h (by rw [show fieldsOKb (.kf64 :: kt) acc [] = false from rfl]; decide)
      | cons v vt =>
        cases v with
        | rawv b =>
          simp only [fieldsOKb, Bool.and_eq_true, beq_iff_eq] at h
          have hraw : ∀ r : List Nat, decode_raw 8 (b ++ r) = some (b, r) := by
            intro r; rw [← h.1]; exact decode_raw_exact b r
          have hrec := ih (acc ++ [.rawv b]) vt rest h.2
          simp only [emitFields] at hrec
          simp [emitFields, emitField, decodeFieldsA, List.append_assoc,
            hraw, hrec]
        | u32v w =>
          exact absurd h (by rw [show fieldsOKb (.kf64 :: kt) acc (.u32v w :: vt) = false from rfl]; decide)
        | strv s =>
          exact absurd h (by rw [show fieldsOKb (.kf64 :: kt) acc (.strv s :: vt) = false from rfl]; decide)
    | kraw f =>
      cases vs with
      | nil => exact absurd h (by rw [show fieldsOKb (.kraw f :: kt) acc [] = false from rfl]; decide)
      | cons v vt =>
        cases v with
        | rawv b =>
          simp only [fieldsOKb, Bool.and_eq_true, beq_iff_eq] at h
          have hraw : ∀ r : List Nat, decode_raw (f acc) (b ++ r) = some (b, r) := by
            intro r; rw [← h.1]; exact decode_raw_exact b r
          have hrec := ih (acc ++ [.rawv b]) vt rest h.2
          simp only [emitFields] at hrec
          simp [emitFields, emitField, decodeFieldsA, List.append_assoc,
            hraw, hrec]
        | u32v w =>
          exact absurd h (by rw [show fieldsOKb (.kraw f :: kt) acc (.u32v w :: vt) = false from rfl]; decide)
        | strv s =>
          exact absurd h (by rw [show fieldsOKb (.kraw f :: kt) acc (.strv s :: vt) = false from rfl]; decide)

/-! #### Recursion-depth cost of decoding an emitted tree -/

/-
Fuel consumed by decodeMemberF / decodeMembersF along any call path
into an emitted tree; bounded by the emitted length, so the read
driver's fuel (payload length + 1) always suffices.
-/
mutual
def costSec : MSection → Nat
  | .leaf _ _ => 1
  | .blob _ _ => 1
  | .group _ ms => 1 + costMembers ms

def costMembers : List MSection → Nat
  | [] => 1
  | s :: ss => 1 + max (costSec s) (costMembers ss)
end

theorem costSec_pos (s : MSection) : 1 ≤ costSec s := by
  cases s <;> simp [costSec] <;> omega

theorem costMembers_pos (l : List MSection) : 1 ≤ costMembers l := by
  cases l <;> simp [costMembers] <;> omega

theorem costMembers_le (l : List MSection) :
    costMembers l ≤ (emitMembers l).length + 1 := by
  refine costMembers.induct (fun s => costSec s ≤ (emitPayload s).length + 1)
    (fun l => costMembers l ≤ (emitMembers l).length + 1) ?_ ?_ ?_ ?_ ?_ l
  · intro c fs; simp [costSec]
  · intro c b; simp [costSec]
  · intro c ms ih
    have h4 : (encode_4 ms.length).length = 4 := rfl
    simp only [costSec, emitPayload, List.length_append, h4]
    omega
  · simp [costMembers, emitMembers]
  · intro s ss ih1 ih2
    simp only [costMembers, emitMembers, List.length_append, emitCore_length]
    omega

/-! #### Well-formedness destructors -/

theorem wfSec_size (s : MSection) (h : wfSec s = true) :
    s.core.size = sizeOfSec s := by
  cases s with
  | leaf c fs =>
    simp only [wfSec, wfCore, Bool.and_eq_true, beq_iff_eq] at h
    exact h.1.1.1
  | blob c b =>
    simp only [wfSec, wfCore, Bool.and_eq_true, beq_iff_eq] at h
    exact h.1.1.1
  | group c ms =>
    simp only [wfSec, wfCore, Bool.and_eq_true, beq_iff_eq] at h
    exact h.1.1.1.1

theorem wfSec_bounded (s : MSection) (h : wfSec s = true) :
    coreBounded s.core = true := by
  cases s with
  | leaf c fs =>
    simp only [wfSec, wfCore, Bool.and_eq_true] at h
    exact h.1.1.2
  | blob c b =>
    simp only [wfSec, wfCore, Bool.and_eq_true] at h
    exact h.1.1.2
  | group c ms =>
    simp only [wfSec, wfCore, Bool.and_eq_true] at h
    exact h.1.1.1.2

/-! #### Decode inverts emit on well-formed trees -/

theorem decode_emit :
    ∀ fuel : Nat,
      (∀ (s : MSection) (rest : List Nat), wfSec s = true →
          s.core.nextOffset ≤ 24 + sizeOfSec s → costSec s ≤ fuel →
          decodeMemberF fuel (emitCore s.core ++ (emitPayload s ++ rest)) =
            some (s, rest)) ∧
      (∀ (l : List MSection) (rest : List Nat), wfMembers l = true →
          costMembers l ≤ fuel →
          decodeMembersF fuel l.length (emitMembers l ++ rest) = some (l, rest)) := by
  intro fuel
  induction fuel with
  | zero =>
    constructor
    · intro s rest _ _ hc
      exact absurd hc (by have := costSec_pos s; omega)
    · intro l rest _ hc
      exact absurd hc (by have := costMembers_pos l; omega)
  | succ f ih =>
    obtain ⟨ihA, ihB⟩ := ih
    constructor
    · intro s rest hwf hoff hcost
      have hbnd := wfSec_bounded s hwf
      have hsz := wfSec_size s hwf
      have hlen : (emitPayload s ++ rest).length = sizeOfSec s + rest.length := by
        simp [emitPayload_size s]
      have hg1 : ¬ (24 + (emitPayload s ++ rest).length < s.core.nextOffset) := by
        rw [hlen]; omega
      have hg2 : ¬ ((emitPayload s ++ rest).length < s.core.size) := by
        rw [hlen, hsz]; omega
      cases s with
      | leaf c fs =>
        simp only [MSection.core] at hbnd hsz hg1 hg2
        have hx := hwf
        simp only [wfSec] at hx
        rcases hreg : registryShape c.secID with _ | shape
        · rw [hreg] at hx; simp at hx
        · rw [hreg] at hx
          simp only [Bool.and_eq_true, Bool.not_eq_true'] at hx
          have hdf := decodeFieldsA_emit shape [] fs rest hx.2
          simp only [emitFields] at hdf
          have hdc := decodeCore_emitCore c
            (emitPayload (MSection.leaf c fs) ++ rest) hbnd
          simp only [emitPayload, emitFields] at hdc hg1 hg2
          simp [decodeMemberF, MSection.core, hdc, hg1, hg2, hx.1.2, hreg,
            emitPayload, emitFields, hdf]
          simp only [List.length_append, List.length_flatten, List.map_map] at hg1 hg2
          omega
      | blob c b =>
        simp only [MSection.core] at hbnd hsz hg1 hg2
        have hx := hwf
        simp only [wfSec, Bool.and_eq_true, Bool.not_eq_true',
          Option.isNone_iff_eq_none] at hx
        have hsz' : c.size = b.length := hsz
        have hdc := decodeCore_emitCore c
          (emitPayload (MSection.blob c b) ++ rest) hbnd
        simp only [emitPayload] at hdc hg1 hg2
        simp [decodeMemberF, MSection.core, hdc, hg1, hg2, hx.1.2, hx.2,
          emitPayload, hsz', take_append_self, drop_append_self]
        simp only [List.length_append] at hg1 hg2
        omega
      | group c ms =>
        simp only [MSection.core] at hbnd hsz hg1 hg2
        have hx := hwf
        simp only [wfSec, Bool.and_eq_true, decide_eq_true_eq] at hx
        have hcost' : costMembers ms ≤ f := by
          simp only [costSec] at hcost; omega
        have hmem := ihB ms rest hx.2 hcost'
        have hdc := decodeCore_emitCore c
          (emitPayload (MSection.group c ms) ++ rest) hbnd
        have hd4 := decode_4_encode_4 ms.length (emitMembers ms ++ rest) hx.1.2
        simp only [emitPayload, List.append_assoc] at hdc hg1 hg2
        simp [decodeMemberF, MSection.core, hdc, hg1, hg2, hx.1.1.2,
          emitPayload, List.append_assoc, hd4, hmem]
        simp only [List.length_append] at hg1 hg2
        omega
    · intro l rest hwf hcost
      cases l with
      | nil => simp [decodeMembersF, emitMembers]
      | cons s ss =>
        cases ss with
        | nil =>
          simp only [wfMembers, Bool.and_eq_true, beq_iff_eq] at hwf
          have hcost' : costSec s ≤ f := by
            simp only [costMembers] at hcost; omega
          have hhead := ihA s rest hwf.1 (by rw [hwf.2]; omega) hcost'
          cases f with
          | zero => exact absurd hcost' (by have := costSec_pos s; omega)
          | succ f' =>
            simp [decodeMembersF, emitMembers, List.append_assoc, hhead]
        | cons s2 ss' =>
          simp only [wfMembers, Bool.and_eq_true, beq_iff_eq] at hwf
          have hszh := wfSec_size s hwf.1.1
          have ecost : costMembers (s :: s2 :: ss') =
              1 + max (costSec s) (costMembers (s2 :: ss')) := rfl
          have hcostA : costSec s ≤ f := by
            rw [ecost] at hcost; omega
          have hcostB : costMembers (s2 :: ss') ≤ f := by
            rw [ecost] at hcost; omega
          have hhead := ihA s (emitMembers (s2 :: ss') ++ rest) hwf.1.1
            (by rw [hwf.1.2, hszh]) hcostA
          have htail := ihB (s2 :: ss') rest hwf.2 hcostB
          simp only [emitMembers, List.append_assoc, List.length_cons]
            at hhead htail
          simp [decodeMembersF, emitMembers, List.append_assoc, hhead, htail]

/-! #### The fix-up passes leave a well-formed tree unchanged -/

theorem fixCore_id (c : MCore) (sz : Nat) (flag : Bool)
    (hsz : c.size = sz)
    (hoff : c.nextOffset = if flag then 0 else 24 + sz) :
    fixCore c sz flag = c := by
  cases c
  simp_all [fixCore]

theorem wf_fixup_members (l : List MSection) (h : wfMembers l = true) :
    fixupMembers l = l := by
  refine wfMembers.induct
    (fun s => wfSec s = true →
      (s.core.nextOffset = 0 → fixupSec true s = s) ∧
      (s.core.nextOffset = 24 + s.core.size → fixupSec false s = s))
    (fun l => wfMembers l = true → fixupMembers l = l) ?_ ?_ ?_ ?_ ?_ ?_ l h
  · intro c fs hwf
    have hsz : c.size = fieldsSize fs := wfSec_size _ hwf
    constructor <;> intro hoff
    · show MSection.leaf (fixCore c (fieldsSize fs) true) fs = MSection.leaf c fs
      rw [fixCore_id c (fieldsSize fs) true hsz (by simpa using hoff)]
    · show MSection.leaf (fixCore c (fieldsSize fs) false) fs = MSection.leaf c fs
      rw [fixCore_id c (fieldsSize fs) false hsz (by simp only [MSection.core] at hoff; simp [hoff, hsz])]
  · intro c b hwf
    have hsz : c.size = b.length := wfSec_size _ hwf
    constructor <;> intro hoff
    · show MSection.blob (fixCore c b.length true) b = MSection.blob c b
      rw [fixCore_id c b.length true hsz (by simpa using hoff)]
    · show MSection.blob (fixCore c b.length false) b = MSection.blob c b
      rw [fixCore_id c b.length false hsz (by simp only [MSection.core] at hoff; simp [hoff, hsz])]
  · intro c ms ih hwf
    have hsz : c.size = 4 + sizeOfMembers ms := wfSec_size _ hwf
    have hm : wfMembers ms = true := by
      simp only [wfSec, Bool.and_eq_true] at hwf
      exact hwf.2
    constructor <;> intro hoff
    · show MSection.group (fixCore c (4 + sizeOfMembers ms) true)
          (fixupMembers ms) = MSection.group c ms
      rw [ih hm, fixCore_id c (4 + sizeOfMembers ms) true hsz (by simpa using hoff)]
    · show MSection.group (fixCore c (4 + sizeOfMembers ms) false)
          (fixupMembers ms) = MSection.group c ms
      rw [ih hm, fixCore_id c (4 + sizeOfMembers ms) false hsz
        (by simp only [MSection.core] at hoff; simp [hoff, hsz])]
  · intro _
    rfl
  · intro s ih hwf
    simp only [wfMembers, Bool.and_eq_true, beq_iff_eq] at hwf
    show [fixupSec true s] = [s]
    rw [(ih hwf.1).1 hwf.2]
  · intro s s2 ss ih1 ih2 hwf
    simp only [wfMembers, Bool.and_eq_true, beq_iff_eq] at hwf
    show fixupSec false s :: fixupMembers (s2 :: ss) = s :: s2 :: ss
    rw [(ih1 hwf.1.1).2 hwf.1.2, ih2 hwf.2]

theorem wfRoot_fixup_id (T : MSection) (h : wfRoot T = true) :
    fixupRoot T = T := by
  cases T with
  | leaf c fs => exact absurd h (by simp [wfRoot])
  | blob c b => exact absurd h (by simp [wfRoot])
  | group c ms =>
    simp only [wfRoot, Bool.and_eq_true, beq_iff_eq] at h
    obtain ⟨⟨hwfg, hoff0⟩, _⟩ := h
    have hsz : c.size = 4 + sizeOfMembers ms := wfSec_size _ hwfg
    have hm : wfMembers ms = true := by
      simp only [wfSec, Bool.and_eq_true] at hwfg
      exact hwfg.2
    show MSection.group (fixCore c (4 + sizeOfMembers ms) true)
        (fixupMembers ms) = MSection.group c ms
    rw [wf_fixup_members ms hm,
      fixCore_id c (4 + sizeOfMembers ms) true hsz (by simpa using hoff0)]

/-! #### The offset invariant established by the fix-up passes -/

/-
offsetsOKSec / offsetsOKMembers state the §8 invariant 5 on the
stored Cores of a tree: within every Group, each member that is not
last has nextOffset = 24 + size, and the last member has nextOffset 0.
-/
mutual
def offsetsOKSec : MSection → Bool
  | .leaf _ _ => true
  | .blob _ _ => true
  | .group _ ms => offsetsOKMembers ms

def offsetsOKMembers : List MSection → Bool
  | [] => true
  | [s] => (s.core.nextOffset == 0) && offsetsOKSec s
  | s :: s2 :: ss =>
      (s.core.nextOffset == 24 + s.core.size) && offsetsOKSec s &&
        offsetsOKMembers (s2 :: ss)
end

theorem fixupSec_core (flag : Bool) (s : MSection) :
    (fixupSec flag s).core = fixCore s.core (sizeOfSec s) flag := by
  cases s <;> rfl

theorem fixupMembers_ne_nil (a : MSection) (l : List MSection) :
    fixupMembers (a :: l) ≠ [] := by
  cases l <;> simp [fixupMembers]

theorem offsetsOKMembers_cons (x : MSection) (xs : List MSection)
    (hx : offsetsOKSec x = true)
    (hoff1 : xs = [] → x.core.nextOffset = 0)
    (hoff2 : xs ≠ [] → x.core.nextOffset = 24 + x.core.size)
    (hxs : offsetsOKMembers xs = true) :
    offsetsOKMembers (x :: xs) = true := by
  cases xs with
  | nil => simp [offsetsOKMembers, hx, hoff1 rfl]
  | cons y ys =>
    have h2 := hoff2 (by simp)
    simp [offsetsOKMembers, hx, h2, hxs]

theorem offsetsOK_fixupMembers (l : List MSection) :
    offsetsOKMembers (fixupMembers l) = true := by
  refine fixupMembers.induct
    (fun flag s => offsetsOKSec (fixupSec flag s) = true)
    (fun l => offsetsOKMembers (fixupMembers l) = true) ?_ ?_ ?_ ?_ ?_ ?_ l
  · intro flag c fs
    rfl
  · intro flag c b
    rfl
  · intro flag c ms ih
    show offsetsOKMembers (fixupMembers ms) = true
    exact ih
  · rfl
  · intro s ih
    show offsetsOKMembers [fixupSec true s] = true
    simp [offsetsOKMembers, fixupSec_core, fixCore, ih]
  · intro s s2 ss ih1 ih2
    show offsetsOKMembers (fixupSec false s :: fixupMembers (s2 :: ss)) = true
    refine offsetsOKMembers_cons _ _ ih1 ?_ ?_ ih2
    · intro hnil
      exact absurd hnil (fixupMembers_ne_nil s2 ss)
    · intro _
      simp [fixupSec_core, fixCore]

/-- C2: after the write fix-up passes, every Section that is not the
last member of its parent Group stores nextOffset = 24 + size (the
serialized Core occupies 24 bytes on the wire, settling the constant
per §3 and §8 of the spec; the glossary's 16 is the inconsistent
figure), the last member of every Group stores nextOffset = 0, and
the outer record, last in the whole-file scope, stores nextOffset 0. -/
theorem writeFixup_offsets (T : MSection) :
    offsetsOKSec (fixupRoot T) = true ∧ (fixupRoot T).core.nextOffset = 0 := by
  constructor
  · cases T with
    | leaf c fs => rfl
    | blob c b => rfl
    | group c ms =>
      show offsetsOKMembers (fixupMembers ms) = true
      exact offsetsOK_fixupMembers ms
  · show (fixupSec true T).core.nextOffset = 0
    rw [fixupSec_core]
    rfl

/-! #### The size op agrees with the encoder (readme MUD_SEC_CMT_proc) -/

/-- The MUD_GET_SIZE arm of MUD_SEC_CMT_proc (readme Example 2):
3 u32 fields, 1 time, and a u16 length prefix plus string length for
author, title and comment. -/
def MUD_SEC_CMT_size (author title comment : List Nat) : Nat :=
  3 * 4 + 1 * 4 + (2 + author.length) + (2 + title.length) +
    (2 + comment.length)

/-- The MUD_ENCODE arm of MUD_SEC_CMT_proc (readme Example 2). -/
def MUD_SEC_CMT_encode (id0 prevReplyID nextReplyID time0 : Nat)
    (author title comment : List Nat) : List Nat :=
  encode_4 id0 ++ encode_4 prevReplyID ++ encode_4 nextReplyID ++
    encode_4 time0 ++ encode_str author ++ encode_str title ++
    encode_str comment

/-- C3: for every registered Section payload, the size op returns
exactly the number of bytes the encode op emits; in particular the
comment Section's size arm (3 u32 + 1 time + length prefix and string
bytes for author/title/comment) matches its encode arm, and the
registry's comment shape emits exactly those bytes. -/
theorem size_op_matches_encode :
    (∀ s : MSection, sizeOfSec s = (emitPayload s).length) ∧
      (∀ (id0 prevReplyID nextReplyID time0 : Nat)
        (author title comment : List Nat),
        MUD_SEC_CMT_size author title comment =
          (MUD_SEC_CMT_encode id0 prevReplyID nextReplyID time0
            author title comment).length) ∧
      (∀ (c : MCore) (id0 prevReplyID nextReplyID time0 : Nat)
        (author title comment : List Nat),
        emitPayload (.leaf c [.u32v id0, .u32v prevReplyID,
          .u32v nextReplyID, .u32v time0, .strv author, .strv title,
          .strv comment]) =
          MUD_SEC_CMT_encode id0 prevReplyID nextReplyID time0
            author title comment) := by
  refine ⟨fun s => (emitPayload_size s).symm, ?_, ?_⟩
  · intro id0 prevReplyID nextReplyID time0 author title comment
    simp [MUD_SEC_CMT_size, MUD_SEC_CMT_encode, encode_4, encode_str, encode_2]
    omega
  · intro c id0 prevReplyID nextReplyID time0 author title comment
    simp [emitPayload, emitFields, emitField, MUD_SEC_CMT_encode]

/-! #### Round-trip of writeFile and readFile -/

/-- C1 (amended): for every tree whose stored Cores are canonical
(size equal to the size op's value; nextOffset 24 + size for non-last
members, 0 for last members and for the outer record) and whose
payloads are within u32/u16 bounds and match their registered shapes,
writing the tree and decoding the result returns the tree unchanged;
hence decode(encode(decode F)) = decode F for every file F whose
decode yields such a tree.  (A file storing non-canonical Core fields
decodes fine but is normalized by re-encoding; see the
counterexample.) -/
theorem decodeFile_writeFile (T : MSection) (h : wfRoot T = true) :
    decodeFile (writeFile T) = some T := by
  have hfix : fixupRoot T = T := wfRoot_fixup_id T h
  cases T with
  | leaf c fs => exact absurd h (by simp [wfRoot])
  | blob c b => exact absurd h (by simp [wfRoot])
  | group c ms =>
    simp only [wfRoot, Bool.and_eq_true, beq_iff_eq] at h
    obtain ⟨⟨hwfg, hoff0⟩, hfmt⟩ := h
    have hbnd := wfSec_bounded _ hwfg
    have hsz := wfSec_size _ hwfg
    simp only [MSection.core] at hbnd hsz
    have hx := hwfg
    simp only [wfSec, Bool.and_eq_true, decide_eq_true_eq] at hx
    have hw : writeFile (.group c ms) =
        emitCore c ++ emitPayload (.group c ms) := by
      unfold writeFile
      rw [hfix]
      rfl
    rw [hw]
    have hdc := decodeCore_emitCore c (emitPayload (.group c ms)) hbnd
    have hpay : emitPayload (MSection.group c ms) =
        encode_4 ms.length ++ emitMembers ms := rfl
    have hlen2 : (emitPayload (MSection.group c ms)).length = c.size := by
      rw [emitPayload_size]
      exact hsz.symm
    have hguard : ¬ ((emitPayload (MSection.group c ms)).length < c.size) := by
      rw [hlen2]
      omega
    have htake : (emitPayload (MSection.group c ms)).take c.size =
        emitPayload (MSection.group c ms) := by
      rw [← hlen2, List.take_length]
    have hcost : costMembers ms ≤ (emitPayload (MSection.group c ms)).length + 1 := by
      have h1 := costMembers_le ms
      have h2 : (emitPayload (MSection.group c ms)).length =
          4 + (emitMembers ms).length := by
        rw [hpay]
        simp [encode_4]
        omega
      omega
    have hmem := (decode_emit ((emitPayload (MSection.group c ms)).length + 1)).2
      ms [] hx.2 hcost
    rw [List.append_nil] at hmem
    have hd4 : decode_4 (emitPayload (MSection.group c ms)) =
        some (ms.length, emitMembers ms) := by
      rw [hpay]
      have := decode_4_encode_4 ms.length (emitMembers ms) hx.1.2
      exact this
    simp [decodeFile, hdc, hfmt, hguard, htake, hd4, hmem]

/-
A concrete well-formed file tree: the generic TD format group holding
one comment Section.
-/
def cmtFields0 : List FieldVal :=
  [.u32v 1, .u32v 0, .u32v 0, .u32v 5, .strv [65], .strv [66, 67], .strv []]

def cmtSec0 : MSection := .leaf ⟨0, 25, MUD_SEC_CMT_ID, 1⟩ cmtFields0

def fileTree0 : MSection := .group ⟨0, 53, MUD_FMT_TRI_TD_ID, 1⟩ [cmtSec0]

/-- C1 witness: the concrete one-comment file tree is well-formed and
survives the write/read round-trip unchanged. -/
theorem decodeFile_writeFile_witness :
    wfRoot fileTree0 = true ∧ decodeFile (writeFile fileTree0) = some fileTree0 :=
  ⟨rfl, decodeFile_writeFile fileTree0 rfl⟩

/-- C1 counterexample: the 28-byte file consisting of an empty
generic-format group whose outer Core stores the non-canonical
nextOffset 99 decodes successfully, but re-encoding the decoded tree
recomputes nextOffset = 0, so decoding the re-encoded stream yields a
tree with different field values: decode(encode(decode F)) differs
from decode(F) on this file, refuting the claim for arbitrary decoded
trees. -/
theorem decode_encode_decode_counterexample :
    decodeFile (emitCore ⟨99, 4, MUD_FMT_GEN_ID, 1⟩ ++ encode_4 0) =
        some (.group ⟨99, 4, MUD_FMT_GEN_ID, 1⟩ []) ∧
      decodeFile (writeFile (.group ⟨99, 4, MUD_FMT_GEN_ID, 1⟩ [])) =
        some (.group ⟨0, 4, MUD_FMT_GEN_ID, 1⟩ []) ∧
      MSection.group ⟨0, 4, MUD_FMT_GEN_ID, 1⟩ [] ≠
        MSection.group ⟨99, 4, MUD_FMT_GEN_ID, 1⟩ [] := by
  refine ⟨rfl, rfl, ?_⟩
  intro heq
  have := congrArg (fun t => t.core.nextOffset) heq
  simp [MSection.core] at this

/-! #### Unknown sections are preserved verbatim -/

/-- C5: when decoding meets a Core whose secID is not in the registry
(and is not a group ID), it stores the next `size` bytes as an opaque
blob and hands the following bytes back to the caller, so decoding
continues with the next Section; re-encoding that blob emits exactly
the original payload bytes. -/
theorem unknown_section_verbatim (fuel : Nat) (c : MCore)
    (bytes rest : List Nat) (hf : 1 ≤ fuel)
    (hreg : registryShape c.secID = none)
    (hgrp : isGroupID c.secID = false)
    (hsz : c.size = bytes.length)
    (hoff : c.nextOffset ≤ 24 + bytes.length + rest.length)
    (hbnd : coreBounded c = true) :
    decodeMemberF fuel (emitCore c ++ (bytes ++ rest)) =
        some (.blob c bytes, rest) ∧
      emitPayload (.blob c bytes) = bytes := by
  obtain ⟨f, rfl⟩ : ∃ f, fuel = f + 1 := ⟨fuel - 1, by omega⟩
  refine ⟨?_, rfl⟩
  have hdc := decodeCore_emitCore c (bytes ++ rest) hbnd
  have hg1 : ¬ (24 + (bytes.length + rest.length) < c.nextOffset) := by
    omega
  have hg2 : ¬ (bytes.length + rest.length < c.size) := by
    omega
  simp [decodeMemberF, hdc, hg1, hg2, hgrp, hreg, hsz,
    take_append_self, drop_append_self]

/-- C5 witness: a Section with secID 0xDEADBEEF and payload bytes
{1,2,3,4,5,6,7} decodes to an opaque blob holding exactly those
bytes, and re-encodes to exactly those bytes. -/
theorem unknown_section_verbatim_witness :
    decodeMemberF 1 (emitCore ⟨0, 7, 3735928559, 1⟩ ++
        ([1, 2, 3, 4, 5, 6, 7] ++ [])) =
        some (.blob ⟨0, 7, 3735928559, 1⟩ [1, 2, 3, 4, 5, 6, 7], []) ∧
      emitPayload (.blob ⟨0, 7, 3735928559, 1⟩ [1, 2, 3, 4, 5, 6, 7]) =
        [1, 2, 3, 4, 5, 6, 7] :=
  unknown_section_verbatim 1 ⟨0, 7, 3735928559, 1⟩ [1, 2, 3, 4, 5, 6, 7] []
    (by omega) rfl rfl rfl (by simp) rfl

/-! ### Handle table and friendly API

Modelled from the spec: mud_friendly.c is not in the tree; the
programmer's guide fixes the contract (every routine except MUD_open*
and MUD_pack returns 0 for failure and 1 for success; string getters
take strdim and return at most strdim-1 characters plus the NUL).
The handle table maps small nonnegative integers to open trees; a
getter locates the run-description Section among the root group's
members and copies one field out; a setter duplicates the caller's
value into the located Section. -/

def lookupHandle (tbl : List (Option MSection)) (fh : Int) : Option MSection :=
  if fh < 0 then none else tbl.getD fh.toNat none

/-- find_child: the inst-th (1-based) direct child with the given
secID, in insertion order. -/
def findChild : List MSection → Nat → Nat → Option MSection
  | [], _, _ => none
  | s :: ss, sid, inst =>
    if s.core.secID = sid then
      if inst = 1 then some s else findChild ss sid (inst - 1)
    else findChild ss sid inst

/-- Locate the run description Section among the root's members. -/
def findRunDesc (root : MSection) : Option MSection :=
  match root with
  | .group _ ms => findChild ms MUD_SEC_GEN_RUN_DESC_ID 1
  | _ => none

/-- The i-th run-description payload field of an open file, if the
handle is live and the Section present. -/
def runDescField (tbl : List (Option MSection)) (fh : Int) (i : Nat) :
    Option FieldVal :=
  match lookupHandle tbl fh with
  | none => none
  | some root =>
    match findRunDesc root with
    | some (.leaf _ fs) => fs.get? i
    | _ => none

/-- MUD_getRunNumber: (status, out value). -/
def MUD_getRunNumber (tbl : List (Option MSection)) (fh : Int) : Nat × Nat :=
  match runDescField tbl fh 1 with
  | some (.u32v v) => (1, v)
  | _ => (0, 0)

/-- MUD_getTitle with a caller buffer of capacity strdim: the bytes
written are at most strdim-1 title characters and a terminating NUL;
(status, buffer contents), none written on failure. -/
def MUD_getTitle (tbl : List (Option MSection)) (fh : Int) (strdim : Nat) :
    Nat × Option (List Nat) :=
  match runDescField tbl fh 5 with
  | some (.strv s) => (1, some (s.take (strdim - 1) ++ [0]))
  | _ => (0, none)

def setLeafField (s : MSection) (i : Nat) (v : FieldVal) : MSection :=
  match s with
  | .leaf c fs => .leaf c (fs.set i v)
  | x => x

def replaceChild : List MSection → Nat → (MSection → MSection) → List MSection
  | [], _, _ => []
  | s :: ss, sid, f =>
    if s.core.secID = sid then f s :: ss else s :: replaceChild ss sid f

/-- MUD_setTitle: locate the run description, duplicate the caller
string into the title field; 0 when the handle is dead or the Section
absent, table unchanged in that case. -/
def MUD_setTitle (tbl : List (Option MSection)) (fh : Int) (str : List Nat) :
    Nat × List (Option MSection) :=
  match lookupHandle tbl fh with
  | none => (0, tbl)
  | some root =>
    match root with
    | .group c ms =>
      match findRunDesc root with
      | some (.leaf _ _) =>
        (1, tbl.set fh.toNat
          (some (.group c (replaceChild ms MUD_SEC_GEN_RUN_DESC_ID
            (fun s => setLeafField s 5 (.strv str))))))
      | _ => (0, tbl)
    | _ => (0, tbl)

/-- MUD_setRunNumber: additionally rejects values that do not fit a
u32 (InvalidInput). -/
def MUD_setRunNumber (tbl : List (Option MSection)) (fh : Int) (v : Nat) :
    Nat × List (Option MSection) :=
  if 4294967296 ≤ v then (0, tbl)
  else
    match lookupHandle tbl fh with
    | none => (0, tbl)
    | some root =>
      match root with
      | .group c ms =>
        match findRunDesc root with
        | some (.leaf _ _) =>
          (1, tbl.set fh.toNat
            (some (.group c (replaceChild ms MUD_SEC_GEN_RUN_DESC_ID
              (fun s => setLeafField s 1 (.u32v v))))))
        | _ => (0, tbl)
      | _ => (0, tbl)

/-- C6: every friendly getter and setter returns exactly 0 or 1 — 1
on success and 0 on any failure (dead handle, absent section, invalid
input) — and signals errors in no other way: the getters return 1
precisely when the addressed field exists. -/
theorem friendly_status_convention (tbl : List (Option MSection)) (fh : Int)
    (strdim v : Nat) (str : List Nat) :
    ((MUD_getRunNumber tbl fh).1 = 0 ∨ (MUD_getRunNumber tbl fh).1 = 1) ∧
      ((MUD_getTitle tbl fh strdim).1 = 0 ∨ (MUD_getTitle tbl fh strdim).1 = 1) ∧
      ((MUD_setTitle tbl fh str).1 = 0 ∨ (MUD_setTitle tbl fh str).1 = 1) ∧
      ((MUD_setRunNumber tbl fh v).1 = 0 ∨ (MUD_setRunNumber tbl fh v).1 = 1) ∧
      ((MUD_getRunNumber tbl fh).1 = 1 ↔
        ∃ w, runDescField tbl fh 1 = some (.u32v w)) ∧
      ((MUD_getTitle tbl fh strdim).1 = 1 ↔
        ∃ s, runDescField tbl fh 5 = some (.strv s)) := by
  refine ⟨?_, ?_, ?_, ?_, ?_, ?_⟩
  · rcases h : runDescField tbl fh 1 with _ | f
    · simp [MUD_getRunNumber, h]
    · cases f <;> simp [MUD_getRunNumber, h]
  · rcases h : runDescField tbl fh 5 with _ | f
    · simp [MUD_getTitle, h]
    · cases f <;> simp [MUD_getTitle, h]
  · unfold MUD_setTitle
    rcases h : lookupHandle tbl fh with _ | root
    · simp
    · rcases root with ⟨c, fs⟩ | ⟨c, b⟩ | ⟨c, ms⟩
      · simp
      · simp
      · rcases h2 : findRunDesc (MSection.group c ms) with _ | s
        · simp [h2]
        · rcases s with ⟨c2, fs2⟩ | ⟨c2, b2⟩ | ⟨c2, ms2⟩ <;> simp [h2]
  · unfold MUD_setRunNumber
    by_cases hv : 4294967296 ≤ v
    · simp [hv]
    · simp only [hv, if_false]
      rcases h : lookupHandle tbl fh with _ | root
      · simp
      · rcases root with ⟨c, fs⟩ | ⟨c, b⟩ | ⟨c, ms⟩
        · simp
        · simp
        · rcases h2 : findRunDesc (MSection.group c ms) with _ | s
          · simp [h2]
          · rcases s with ⟨c2, fs2⟩ | ⟨c2, b2⟩ | ⟨c2, ms2⟩ <;> simp [h2]
  · rcases h : runDescField tbl fh 1 with _ | f
    · simp [MUD_getRunNumber, h]
    · cases f <;> simp [MUD_getRunNumber, h]
  · rcases h : runDescField tbl fh 5 with _ | f
    · simp [MUD_getTitle, h]
    · cases f <;> simp [MUD_getTitle, h]

/-- C7: a successful friendly string getter writes at most strdim-1
characters plus the NUL terminator into the caller's buffer (so at
most strdim bytes in total), and when the stored field is shorter
than strdim the buffer receives the field's value exactly. -/
theorem getTitle_strdim (tbl : List (Option MSection)) (fh : Int)
    (strdim : Nat) (s : List Nat) (h1 : 1 ≤ strdim)
    (h2 : runDescField tbl fh 5 = some (.strv s)) :
    MUD_getTitle tbl fh strdim = (1, some (s.take (strdim - 1) ++ [0])) ∧
      (s.take (strdim - 1)).length ≤ strdim - 1 ∧
      (s.take (strdim - 1) ++ [0]).length ≤ strdim ∧
      (s.length < strdim → s.take (strdim - 1) = s) := by
  refine ⟨by simp [MUD_getTitle, h2], ?_, ?_, ?_⟩
  · simp [List.length_take]
  · simp only [List.length_append, List.length_take, List.length_cons,
      List.length_nil]
    omega
  · intro hlt
    apply List.take_of_length_le
    omega

/-
A concrete open-file table: handle 0 holds a TD-format group with a
run description whose title is "BC".
-/
def runDescFields0 : List FieldVal :=
  [.u32v 1, .u32v 6663, .u32v 0, .u32v 0, .u32v 0, .strv [66, 67],
   .strv [], .strv [], .strv [], .strv [], .strv [], .strv [],
   .strv [], .strv [], .strv [], .strv [], .strv []]

def tbl0 : List (Option MSection) :=
  [some (.group ⟨0, 0, MUD_FMT_TRI_TD_ID, 1⟩
    [.leaf ⟨0, 0, MUD_SEC_GEN_RUN_DESC_ID, 1⟩ runDescFields0])]

/-- C7 witness: reading the title "BC" through a 10-byte buffer
returns status 1 with the full value and NUL terminator. -/
theorem getTitle_strdim_witness :
    MUD_getTitle tbl0 0 10 = (1, some ([66, 67].take 9 ++ [0])) ∧
      ([66, 67].take 9 : List Nat).length ≤ 9 ∧
      (([66, 67].take 9 : List Nat) ++ [0]).length ≤ 10 ∧
      (([66, 67] : List Nat).length < 10 → ([66, 67].take 9 : List Nat) = [66, 67]) :=
  getTitle_strdim tbl0 0 10 [66, 67] (by omega) rfl

/-- C9 witness: the command "EXit9" matches the prototype "exit" with
len 4 — the prototype is a case-insensitive prefix of it. -/
theorem matchcmd_spec_witness :
    matchcmd [69, 88, 105, 116, 57] [101, 120, 105, 116] 4 = 1 :=
  (matchcmd_spec [69, 88, 105, 116, 57] [101, 120, 105, 116] 4).2
    ⟨by decide, by decide⟩
